import Mathlib

/-!
Verification of the audio-analysis and spectrogram-buffering pipeline of
src/spectrogram.js (class SpectrogramVisualizer).

JavaScript floating-point arithmetic is modelled over the real numbers.
The Uint8Array backing store of the texture is modelled as a function from
flat indices to integers; a store into it reduces the written integer
modulo 256, which is the ToUint8 conversion JavaScript applies.
-/

noncomputable section

/-- Sample rate hardcoded in createMelFilterBank (src/spectrogram.js line 323). -/
def sampleRate : ℝ := 44100

/-- hzToMel (line 328): mel = 2595 * log10(1 + hz / 700). -/
def hzToMel (hz : ℝ) : ℝ := 2595 * Real.logb 10 (1 + hz / 700)

/-- melToHz (line 329): hz = 700 * (10 ^ (mel / 2595) - 1); Math.pow on
nonnegative base is real exponentiation. -/
def melToHz (mel : ℝ) : ℝ := 700 * ((10 : ℝ) ^ (mel / 2595) - 1)

/-- melMin (line 332).  The source hardcodes the minimum frequency 500 Hz;
the spec contract exposes it as a parameter minHz with default 500, so it is
kept as a parameter here and instantiated with 500 for the source behaviour. -/
def melMin (minHz : ℝ) : ℝ := hzToMel minHz

/-- melMax (line 333): hzToMel of the Nyquist frequency sampleRate / 2. -/
def melMax : ℝ := hzToMel (sampleRate / 2)

/-- melPoints[i] (lines 334-337): nMels + 2 equally spaced Mel breakpoints
melMin + (melMax - melMin) * i / (nMels + 1), for i = 0 .. nMels + 1. -/
def melPoints (minHz : ℝ) (nMels i : ℕ) : ℝ :=
  melMin minHz + (melMax - melMin minHz) * i / (nMels + 1)

/-- hzPoints[i] (line 340): the breakpoints converted back to Hz. -/
def hzPoints (minHz : ℝ) (nMels i : ℕ) : ℝ :=
  melToHz (melPoints minHz nMels i)

/-- Frequency of FFT bin k (line 351): freq = k * sampleRate / (2 * nfft). -/
def binFreq (nfft k : ℕ) : ℝ := k * sampleRate / (2 * nfft)

/-- Weight of the filter with 0-based index j at bin k (lines 345-357).
The source loop index is m = j + 1, so left = hzPoints[j],
center = hzPoints[j+1], right = hzPoints[j+2]; the weight is the rising
ramp on left <= freq <= center, the falling ramp on center < freq <= right,
and the fill value 0 elsewhere. -/
def melFilterWeight (minHz : ℝ) (nfft nMels j k : ℕ) : ℝ :=
  if hzPoints minHz nMels j ≤ binFreq nfft k ∧
      binFreq nfft k ≤ hzPoints minHz nMels (j + 1) then
    (binFreq nfft k - hzPoints minHz nMels j) /
      (hzPoints minHz nMels (j + 1) - hzPoints minHz nMels j)
  else if hzPoints minHz nMels (j + 1) < binFreq nfft k ∧
      binFreq nfft k ≤ hzPoints minHz nMels (j + 2) then
    (hzPoints minHz nMels (j + 2) - binFreq nfft k) /
      (hzPoints minHz nMels (j + 2) - hzPoints minHz nMels (j + 1))
  else 0

/-- createMelFilterBank (lines 322-363): nMels filters, each a vector of
nfft weights, where nfft = fftSize / 2. -/
def createMelFilterBank (minHz : ℝ) (nfft nMels : ℕ) : List (List ℝ) :=
  List.ofFn (fun j : Fin nMels =>
    List.ofFn (fun k : Fin nfft => melFilterWeight minHz nfft nMels j k))

/-- applyMelFiltering (lines 560-572): melData[m] =
(sum over k of fftData[k] * melFilterBank[m][k]) / 255, for
m = 0 .. melBands - 1. -/
def applyMelFiltering (melBands : ℕ) (bank : List (List ℝ))
    (fftData : List ℝ) : List ℝ :=
  List.ofFn (fun m : Fin melBands =>
    (∑ k ∈ Finset.range fftData.length,
      fftData.getD k 0 * (bank.getD m []).getD k 0) / 255)

/-- History push step of updateSpectrogram (lines 587-592): append the new
frame; if the length then exceeds the configured width, shift() removes the
front (oldest) entry. -/
def pushFrame {α : Type} (W : ℕ) (buf : List α) (f : α) : List α :=
  if W < (buf ++ [f]).length then (buf ++ [f]).tail else buf ++ [f]

/-- Pushing a sequence of frames one analysis tick at a time. -/
def pushAll {α : Type} (W : ℕ) (buf : List α) (fs : List α) : List α :=
  fs.foldl (pushFrame W) buf

/-- Byte written for one colour channel of the newest column
(lines 621-627): intensity = Math.min(1.0, latestData[y] || 0),
value = Math.floor(intensity * 255), stored into a Uint8Array, i.e. reduced
modulo 256. -/
def encodeByte (v : ℝ) : ℤ := Int.floor (min 1 v * 255) % 256

/-- One updateTexture mutation (lines 604-629) of the flat RGBA byte array;
the cell (row y, column x, channel c) lives at index (y * W + x) * 4 + c.
The two sequential source loops are equivalent to this simultaneous form:
the shift loop writes (y, x) reading (y, x+1) at step x, before (y, x+1) is
itself overwritten at step x+1, and the append loop touches only column
W - 1, which the shift loop never writes. -/
def shiftAppendTexture (W B : ℕ) (frame : List ℝ) (data : ℕ → ℤ) : ℕ → ℤ :=
  fun i =>
    if i / 4 / W < B then
      if i / 4 % W = W - 1 then
        (if i % 4 = 3 then 255 else encodeByte (frame.getD (i / 4 / W) 0))
      else data (i + 4)
    else data i

/-- updateTexture (lines 601-632): with no texture or an empty history it
returns without touching any pixel; otherwise the newest history frame
spectrogramData[length - 1] is shifted in. -/
def updateTexture (W B : ℕ) (hist : List (List ℝ)) (tex : Option (ℕ → ℤ)) :
    Option (ℕ → ℤ) :=
  match tex with
  | none => none
  | some data =>
    if hist = [] then some data
    else some (shiftAppendTexture W B (hist.getLastD []) data)

/-- Texture bytes as filled by createSpectrogramPlane (lines 119-127):
R = G = B = 0 and A = 255 on every pixel of the W * B * 4 array. -/
def initialTextureData (W B : ℕ) : ℕ → ℤ :=
  fun i => if i < W * B * 4 ∧ i % 4 = 3 then 255 else 0

/-- Texture bytes right after recreateTexture (lines 535-555): the fresh
Uint8Array is zero-initialised and, unlike createSpectrogramPlane, no fill
loop runs, so every byte (the alpha channel included) is 0. -/
def recreateTextureData (W B : ℕ) : ℕ → ℤ := fun _ => 0

/-- Repeated shift-and-append of a list of frames, oldest first. -/
def applyFrames (W B : ℕ) (data : ℕ → ℤ) (fs : List (List ℝ)) : ℕ → ℤ :=
  fs.foldl (fun d f => shiftAppendTexture W B f d) data

/-- GLSL smoothstep(e0, e1, x): clamp then cubic Hermite. -/
def smoothstep (e0 e1 x : ℝ) : ℝ :=
  min (max ((x - e0) / (e1 - e0)) 0) 1 * (min (max ((x - e0) / (e1 - e0)) 0) 1) *
    (3 - 2 * min (max ((x - e0) / (e1 - e0)) 0) 1)

/-- GLSL mix(a, b, t) on a vec3 with a scalar parameter. -/
def mix3 (a b : ℝ × ℝ × ℝ) (t : ℝ) : ℝ × ℝ × ℝ :=
  (a.1 * (1 - t) + b.1 * t, a.2.1 * (1 - t) + b.2.1 * t,
    a.2.2 * (1 - t) + b.2.2 * t)

/-- The IQ palette function of the fragment shader (lines 163-165):
a + b * cos(6.28318 * (c * t + d)), componentwise. -/
def palette (t : ℝ) (a b c d : ℝ × ℝ × ℝ) : ℝ × ℝ × ℝ :=
  (a.1 + b.1 * Real.cos (6.28318 * (c.1 * t + d.1)),
   a.2.1 + b.2.1 * Real.cos (6.28318 * (c.2.1 * t + d.2.1)),
   a.2.2 + b.2.2 * Real.cos (6.28318 * (c.2.2 * t + d.2.2)))

/-- Low-intensity branch of spectrogramColor (intensity < 0.25):
mix(dark, mid, smoothstep(0.0, 0.25, intensity)). -/
def lowBranch (intensity : ℝ) : ℝ × ℝ × ℝ :=
  mix3 (0.28, 0.27, 0.91) (0.8, 0.36, 0.57) (smoothstep 0 0.25 intensity)

/-- Middle branch of spectrogramColor (0.25 <= intensity < 0.6):
mix(mid, bright, smoothstep(0.25, 0.6, intensity)). -/
def midBranch (intensity : ℝ) : ℝ × ℝ × ℝ :=
  mix3 (0.8, 0.36, 0.57) (0.88, 0.43, 0.35) (smoothstep 0.25 0.6 intensity)

/-- High branch of spectrogramColor (intensity >= 0.6):
mix(bright, core, smoothstep(0.6, 1.0, intensity)). -/
def highBranch (intensity : ℝ) : ℝ × ℝ × ℝ :=
  mix3 (0.88, 0.43, 0.35) (0.86, 0.47, 0.28) (smoothstep 0.6 1 intensity)

/-- Componentwise scaling of a vec3, the shader's `color *= softEdge`. -/
def scale3 (v : ℝ × ℝ × ℝ) (s : ℝ) : ℝ × ℝ × ℝ := (v.1 * s, v.2.1 * s, v.2.2 * s)

/-- spectrogramColor of the fragment shader (lines 180-218): black below
0.01, then the piecewise palette blended with the IQ palette by
0.3 * intensity and softened by smoothstep(0.0, 0.05, intensity). -/
def spectrogramColor (time intensity : ℝ) : ℝ × ℝ × ℝ :=
  if intensity < 0.01 then (0, 0, 0)
  else
    scale3
      (mix3
        (if intensity < 0.25 then lowBranch intensity
         else if intensity < 0.6 then midBranch intensity
         else highBranch intensity)
        (palette (intensity + time * 0.1) (0.5, 0.5, 0.5) (0.3, 0.3, 0.3)
          (1, 1, 0.5) (0.8, 0.9, 0.3))
        (0.3 * intensity))
      (smoothstep 0 0.05 intensity)

/-- A sparse magnitude frame: 255 at bins 105 and 106, 0 elsewhere.  Every
entry is a valid byte magnitude. -/
def spikeInput : List ℝ :=
  List.ofFn (fun k : Fin 512 => if (k : ℕ) = 105 ∨ (k : ℕ) = 106 then 255 else 0)

/-- The triangular ramp exactly as the spec words it: 0 outside
[left, right], rising linearly from left to center, falling linearly from
center to right. -/
def triangularRamp (l c r f : ℝ) : ℝ :=
  if f < l then 0
  else if f ≤ c then (f - l) / (c - l)
  else if f ≤ r then (r - f) / (r - c)
  else 0

/-- The byte encoding the spec's edge case demands: clamp the value to
[0, 1] before scaling to 0-255. -/
def clampScaleSpec (v : ℝ) : ℤ := Int.floor (max 0 (min 1 v) * 255)

/-- A weight sequence strictly increases then strictly decreases around a
peak, as the claim words unimodality. -/
def StrictUnimodal (w : ℕ → ℝ) (len : ℕ) : Prop :=
  ∃ p, p < len ∧ (∀ k, k + 1 ≤ p → w k < w (k + 1)) ∧
    (∀ k, p ≤ k → k + 1 < len → w (k + 1) < w k)

/-- Every cell of a W-by-B RGBA image has equal R, G and B bytes and alpha
byte 255. -/
def rgbaUniform (W B : ℕ) (d : ℕ → ℤ) : Prop :=
  ∀ y, y < B → ∀ x, x < W →
    d ((y * W + x) * 4) = d ((y * W + x) * 4 + 1) ∧
    d ((y * W + x) * 4 + 1) = d ((y * W + x) * 4 + 2) ∧
    d ((y * W + x) * 4 + 3) = 255

end
section Helpers

lemma getD_ofFn {α : Type} {n : ℕ} (f : Fin n → α) (d : α) {k : ℕ} (h : k < n) :
    (List.ofFn f).getD k d = f ⟨k, h⟩ := by
  have hl : k < (List.ofFn f).length := by simpa using h
  rw [List.getD_eq_getElem _ _ hl]
  simp

lemma getD_replicate {α : Type} {n : ℕ} (a d : α) {k : ℕ} (h : k < n) :
    (List.replicate n a).getD k d = a := by
  have hl : k < (List.replicate n a).length := by simpa using h
  rw [List.getD_eq_getElem _ _ hl]
  simp

lemma melPoints_div (n i : ℕ) :
    melPoints 500 n i / 2595 =
      Real.logb 10 (12 / 7) +
        (Real.logb 10 (65 / 2) - Real.logb 10 (12 / 7)) * ((i : ℝ) / ((n : ℝ) + 1)) := by
  have h1 : (1 : ℝ) + 500 / 700 = 12 / 7 := by norm_num
  have h2 : (1 : ℝ) + 44100 / 2 / 700 = 65 / 2 := by norm_num
  have hn : ((n : ℝ) + 1) ≠ 0 := by positivity
  unfold melPoints melMin melMax hzToMel sampleRate
  rw [h1, h2]
  field_simp
  ring

lemma hzPoints_eq (n i : ℕ) :
    hzPoints 500 n i = 1200 * (455 / 24 : ℝ) ^ ((i : ℝ) / ((n : ℝ) + 1)) - 700 := by
  have h10 : (0 : ℝ) < 10 := by norm_num
  have hne : (10 : ℝ) ≠ 1 := by norm_num
  rw [hzPoints, melToHz, melPoints_div n i]
  rw [Real.rpow_add h10, Real.rpow_mul h10.le, Real.rpow_sub h10]
  rw [Real.rpow_logb h10 hne (by norm_num : (0:ℝ) < 12 / 7),
    Real.rpow_logb h10 hne (by norm_num : (0:ℝ) < 65 / 2)]
  have h3 : (65 / 2 : ℝ) / (12 / 7) = 455 / 24 := by norm_num
  rw [h3]
  ring

lemma hzPoints_lt_hzPoints {n i j : ℕ} (hij : i < j) :
    hzPoints 500 n i < hzPoints 500 n j := by
  rw [hzPoints_eq, hzPoints_eq]
  have h1 : (1 : ℝ) < 455 / 24 := by norm_num
  have ht : ((i : ℝ) / ((n : ℝ) + 1)) < ((j : ℝ) / ((n : ℝ) + 1)) := by
    rw [div_lt_div_iff_of_pos_right (by positivity)]
    exact_mod_cast hij
  have := (Real.rpow_lt_rpow_left_iff h1).mpr ht
  linarith

lemma hzPoints_zero (n : ℕ) : hzPoints 500 n 0 = 500 := by
  rw [hzPoints_eq]
  norm_num

lemma hzPoints_last (n : ℕ) : hzPoints 500 n (n + 1) = 22050 := by
  rw [hzPoints_eq]
  have h : ((n + 1 : ℕ) : ℝ) / ((n : ℝ) + 1) = 1 := by
    push_cast
    field_simp
  rw [h, Real.rpow_one]
  norm_num

end Helpers
section Helpers2

lemma rho_root_pow (m : ℕ) (hm : (m : ℝ) ≠ 0) :
    ((455 / 24 : ℝ) ^ ((1 : ℝ) / m)) ^ m = 455 / 24 := by
  rw [← Real.rpow_natCast ((455 / 24 : ℝ) ^ ((1 : ℝ) / m)) m,
    ← Real.rpow_mul (by norm_num : (0:ℝ) ≤ 455 / 24), one_div,
    inv_mul_cancel₀ hm, Real.rpow_one]

lemma rho_fifth_bounds :
    (9 : ℝ) / 5 < (455 / 24 : ℝ) ^ ((1 : ℝ) / 5) ∧
      (455 / 24 : ℝ) ^ ((1 : ℝ) / 5) < 181 / 100 := by
  have ha : (0 : ℝ) < (455 / 24 : ℝ) ^ ((1 : ℝ) / 5) :=
    Real.rpow_pos_of_pos (by norm_num) _
  have h5 : ((455 / 24 : ℝ) ^ ((1 : ℝ) / 5)) ^ (5 : ℕ) = 455 / 24 := by
    have := rho_root_pow 5 (by norm_num)
    exact_mod_cast this
  constructor
  · by_contra h
    push_neg at h
    have := pow_le_pow_left₀ ha.le h 5
    rw [h5] at this
    norm_num at this
  · by_contra h
    push_neg at h
    have := pow_le_pow_left₀ (by norm_num : (0:ℝ) ≤ 181 / 100) h 5
    rw [h5] at this
    norm_num at this

lemma rho_sqrt_bounds :
    (544 : ℝ) / 125 < (455 / 24 : ℝ) ^ ((1 : ℝ) / 2) ∧
      (455 / 24 : ℝ) ^ ((1 : ℝ) / 2) < 109 / 25 := by
  have ha : (0 : ℝ) < (455 / 24 : ℝ) ^ ((1 : ℝ) / 2) :=
    Real.rpow_pos_of_pos (by norm_num) _
  have h2 : ((455 / 24 : ℝ) ^ ((1 : ℝ) / 2)) ^ (2 : ℕ) = 455 / 24 := by
    have := rho_root_pow 2 (by norm_num)
    exact_mod_cast this
  constructor
  · by_contra h
    push_neg at h
    have := pow_le_pow_left₀ ha.le h 2
    rw [h2] at this
    norm_num at this
  · by_contra h
    push_neg at h
    have := pow_le_pow_left₀ (by norm_num : (0:ℝ) ≤ 109 / 25) h 2
    rw [h2] at this
    norm_num at this

lemma melFilterWeight_bounds (nfft n j k : ℕ) :
    0 ≤ melFilterWeight 500 nfft n j k ∧ melFilterWeight 500 nfft n j k ≤ 1 := by
  have hlc : hzPoints 500 n j < hzPoints 500 n (j + 1) :=
    hzPoints_lt_hzPoints (by omega)
  have hcr : hzPoints 500 n (j + 1) < hzPoints 500 n (j + 2) :=
    hzPoints_lt_hzPoints (by omega)
  unfold melFilterWeight
  split_ifs with h1 h2
  · constructor
    · apply div_nonneg <;> linarith [h1.1]
    · rw [div_le_one (by linarith)]
      linarith [h1.2]
  · constructor
    · apply div_nonneg <;> linarith [h2.1, h2.2]
    · rw [div_le_one (by linarith)]
      linarith [h2.1]
  · norm_num

lemma melFilterWeight_eq_zero (minHz : ℝ) (nfft n j k : ℕ)
    (h1 : binFreq nfft k < hzPoints minHz n j)
    (h2 : ¬ hzPoints minHz n (j + 1) < binFreq nfft k) :
    melFilterWeight minHz nfft n j k = 0 := by
  unfold melFilterWeight
  rw [if_neg (by rintro ⟨hl, -⟩; exact absurd hl (not_le.mpr h1)),
    if_neg (by rintro ⟨hc, -⟩; exact h2 hc)]

lemma bank_length (minHz : ℝ) (nfft n : ℕ) :
    (createMelFilterBank minHz nfft n).length = n := by
  simp [createMelFilterBank]

lemma bank_inner_length (minHz : ℝ) (nfft n : ℕ) {j : ℕ} (hj : j < n) :
    ((createMelFilterBank minHz nfft n).getD j []).length = nfft := by
  rw [createMelFilterBank, getD_ofFn _ _ hj]
  simp

lemma bank_get (minHz : ℝ) (nfft n : ℕ) {j k : ℕ} (hj : j < n) (hk : k < nfft) :
    ((createMelFilterBank minHz nfft n).getD j []).getD k 0 =
      melFilterWeight minHz nfft n j k := by
  rw [createMelFilterBank, getD_ofFn _ _ hj, getD_ofFn _ _ hk]

end Helpers2
section Helpers3

lemma binFreq_mono (nfft : ℕ) {k1 k2 : ℕ} (h : k1 ≤ k2) :
    binFreq nfft k1 ≤ binFreq nfft k2 := by
  unfold binFreq
  rcases Nat.eq_zero_or_pos nfft with h0 | hpos
  · subst h0
    norm_num
  · have hd : (0 : ℝ) < 2 * (nfft : ℕ) := by positivity
    rw [div_le_div_iff_of_pos_right hd]
    have : (k1 : ℝ) ≤ (k2 : ℝ) := by exact_mod_cast h
    unfold sampleRate
    nlinarith

lemma melFilterWeight_rise (nfft n j : ℕ) {k1 k2 : ℕ} (hk : k1 ≤ k2)
    (hc : binFreq nfft k2 ≤ hzPoints 500 n (j + 1)) :
    melFilterWeight 500 nfft n j k1 ≤ melFilterWeight 500 nfft n j k2 := by
  have hlc : hzPoints 500 n j < hzPoints 500 n (j + 1) :=
    hzPoints_lt_hzPoints (by omega)
  have hf : binFreq nfft k1 ≤ binFreq nfft k2 := binFreq_mono nfft hk
  by_cases hfl : binFreq nfft k2 < hzPoints 500 n j
  · rw [melFilterWeight_eq_zero 500 nfft n j k1 (lt_of_le_of_lt hf hfl)
        (by push_neg; linarith),
      melFilterWeight_eq_zero 500 nfft n j k2 hfl (by push_neg; linarith)]
  · push_neg at hfl
    have hw2 : melFilterWeight 500 nfft n j k2 =
        (binFreq nfft k2 - hzPoints 500 n j) /
          (hzPoints 500 n (j + 1) - hzPoints 500 n j) := by
      unfold melFilterWeight
      rw [if_pos ⟨hfl, hc⟩]
    rw [hw2]
    by_cases hf1 : hzPoints 500 n j ≤ binFreq nfft k1
    · have hw1 : melFilterWeight 500 nfft n j k1 =
          (binFreq nfft k1 - hzPoints 500 n j) /
            (hzPoints 500 n (j + 1) - hzPoints 500 n j) := by
        unfold melFilterWeight
        rw [if_pos ⟨hf1, le_trans hf hc⟩]
      rw [hw1, div_le_div_iff_of_pos_right (by linarith)]
      linarith
    · push_neg at hf1
      rw [melFilterWeight_eq_zero 500 nfft n j k1 hf1 (by push_neg; linarith)]
      apply div_nonneg <;> linarith

lemma melFilterWeight_fall (nfft n j : ℕ) {k1 k2 : ℕ} (hk : k1 ≤ k2)
    (hc : hzPoints 500 n (j + 1) ≤ binFreq nfft k1) :
    melFilterWeight 500 nfft n j k2 ≤ melFilterWeight 500 nfft n j k1 := by
  have hlc : hzPoints 500 n j < hzPoints 500 n (j + 1) :=
    hzPoints_lt_hzPoints (by omega)
  have hcr : hzPoints 500 n (j + 1) < hzPoints 500 n (j + 2) :=
    hzPoints_lt_hzPoints (by omega)
  have hf : binFreq nfft k1 ≤ binFreq nfft k2 := binFreq_mono nfft hk
  by_cases hf2r : hzPoints 500 n (j + 2) < binFreq nfft k2
  · have hw2 : melFilterWeight 500 nfft n j k2 = 0 := by
      unfold melFilterWeight
      rw [if_neg (by rintro ⟨-, hx⟩; linarith),
        if_neg (by rintro ⟨-, hx⟩; linarith)]
    rw [hw2]
    exact (melFilterWeight_bounds nfft n j k1).1
  · push_neg at hf2r
    by_cases hf2c : binFreq nfft k2 ≤ hzPoints 500 n (j + 1)
    · have e2 : binFreq nfft k2 = hzPoints 500 n (j + 1) :=
        le_antisymm hf2c (le_trans hc hf)
      have e1 : binFreq nfft k1 = hzPoints 500 n (j + 1) :=
        le_antisymm (le_trans hf hf2c) hc
      have hw1 : melFilterWeight 500 nfft n j k1 = 1 := by
        unfold melFilterWeight
        rw [if_pos ⟨by rw [e1]; exact hlc.le, by rw [e1]⟩, e1,
          div_self (by linarith)]
      have hw2 : melFilterWeight 500 nfft n j k2 = 1 := by
        unfold melFilterWeight
        rw [if_pos ⟨by rw [e2]; exact hlc.le, by rw [e2]⟩, e2,
          div_self (by linarith)]
      rw [hw1, hw2]
    · push_neg at hf2c
      have hw2 : melFilterWeight 500 nfft n j k2 =
          (hzPoints 500 n (j + 2) - binFreq nfft k2) /
            (hzPoints 500 n (j + 2) - hzPoints 500 n (j + 1)) := by
        unfold melFilterWeight
        rw [if_neg (by rintro ⟨-, hx⟩; linarith), if_pos ⟨hf2c, hf2r⟩]
      rw [hw2]
      by_cases hf1c : binFreq nfft k1 ≤ hzPoints 500 n (j + 1)
      · have e1 : binFreq nfft k1 = hzPoints 500 n (j + 1) := le_antisymm hf1c hc
        have hw1 : melFilterWeight 500 nfft n j k1 = 1 := by
          unfold melFilterWeight
          rw [if_pos ⟨by rw [e1]; exact hlc.le, by rw [e1]⟩, e1,
            div_self (by linarith)]
        rw [hw1, div_le_one (by linarith)]
        linarith
      · push_neg at hf1c
        by_cases hf1r : binFreq nfft k1 ≤ hzPoints 500 n (j + 2)
        · have hw1 : melFilterWeight 500 nfft n j k1 =
              (hzPoints 500 n (j + 2) - binFreq nfft k1) /
                (hzPoints 500 n (j + 2) - hzPoints 500 n (j + 1)) := by
            unfold melFilterWeight
            rw [if_neg (by rintro ⟨-, hx⟩; linarith), if_pos ⟨hf1c, hf1r⟩]
          rw [hw1, div_le_div_iff_of_pos_right (by linarith)]
          linarith
        · push_neg at hf1r
          exfalso
          linarith

lemma weight_eq_ramp (nfft n j k : ℕ) :
    melFilterWeight 500 nfft n j k =
      triangularRamp (hzPoints 500 n j) (hzPoints 500 n (j + 1))
        (hzPoints 500 n (j + 2)) (binFreq nfft k) := by
  have hlc : hzPoints 500 n j < hzPoints 500 n (j + 1) :=
    hzPoints_lt_hzPoints (by omega)
  have hcr : hzPoints 500 n (j + 1) < hzPoints 500 n (j + 2) :=
    hzPoints_lt_hzPoints (by omega)
  unfold melFilterWeight triangularRamp
  by_cases hd1 : binFreq nfft k < hzPoints 500 n j
  · rw [if_pos hd1, if_neg (by rintro ⟨hx, -⟩; linarith),
      if_neg (by rintro ⟨hx, -⟩; linarith)]
  · push_neg at hd1
    by_cases hd2 : binFreq nfft k ≤ hzPoints 500 n (j + 1)
    · rw [if_pos ⟨hd1, hd2⟩, if_neg (by push_neg; linarith), if_pos hd2]
    · push_neg at hd2
      by_cases hd3 : binFreq nfft k ≤ hzPoints 500 n (j + 2)
      · rw [if_neg (by rintro ⟨-, hx⟩; linarith), if_pos ⟨hd2, hd3⟩,
          if_neg (by push_neg; linarith), if_neg (by linarith), if_pos hd3]
      · push_neg at hd3
        rw [if_neg (by rintro ⟨-, hx⟩; linarith),
          if_neg (by rintro ⟨-, hx⟩; linarith),
          if_neg (by push_neg; linarith), if_neg (by linarith),
          if_neg (by linarith)]

lemma melToHz_hzToMel (hz : ℝ) (h : 0 < 1 + hz / 700) : melToHz (hzToMel hz) = hz := by
  unfold melToHz hzToMel
  have h1 : (2595 : ℝ) * Real.logb 10 (1 + hz / 700) / 2595 =
      Real.logb 10 (1 + hz / 700) := by ring
  rw [h1, Real.rpow_logb (by norm_num) (by norm_num) h]
  ring

lemma hzPoints_degenerate (n i : ℕ) : hzPoints 22050 n i = 22050 := by
  unfold hzPoints melPoints melMin melMax sampleRate
  have h : (44100 : ℝ) / 2 = 22050 := by norm_num
  rw [h]
  ring_nf
  exact melToHz_hzToMel 22050 (by norm_num)

lemma degenerate_weight_zero (nfft n j k : ℕ) (hk : k < nfft) :
    melFilterWeight 22050 nfft n j k = 0 := by
  have hfreq : binFreq nfft k < 22050 := by
    unfold binFreq sampleRate
    have hn : (0 : ℝ) < (nfft : ℕ) := by
      have : 0 < nfft := lt_of_le_of_lt (Nat.zero_le k) hk
      exact_mod_cast this
    rw [div_lt_iff₀ (by linarith)]
    have : (k : ℝ) < (nfft : ℝ) := by exact_mod_cast hk
    nlinarith
  apply melFilterWeight_eq_zero
  · rw [hzPoints_degenerate]
    exact hfreq
  · rw [hzPoints_degenerate]
    push_neg
    linarith

end Helpers3
section Helpers4

lemma center_one_bounds : (4522 : ℝ) < hzPoints 500 1 1 ∧ hzPoints 500 1 1 < 4532 := by
  obtain ⟨hb1, hb2⟩ := rho_sqrt_bounds
  have hcen : hzPoints 500 1 1 = 1200 * (455 / 24 : ℝ) ^ ((1 : ℝ) / 2) - 700 := by
    rw [hzPoints_eq]
    norm_num
  rw [hcen]
  constructor <;> linarith

lemma hzPoints_one_two : hzPoints 500 1 2 = 22050 := by
  have := hzPoints_last 1
  norm_num at this
  exact this

lemma w105_lb : (399 : ℝ) / 400 ≤ melFilterWeight 500 512 1 0 105 := by
  obtain ⟨hc1, hc2⟩ := center_one_bounds
  have hf : binFreq 512 105 = 1157625 / 256 := by
    unfold binFreq sampleRate
    norm_num
  unfold melFilterWeight
  simp only [zero_add]
  rw [hzPoints_zero, hf]
  rw [if_pos ⟨by norm_num, by norm_num; linarith⟩]
  rw [le_div_iff₀ (by linarith)]
  linarith

lemma w106_lb : (399 : ℝ) / 400 ≤ melFilterWeight 500 512 1 0 106 := by
  obtain ⟨hc1, hc2⟩ := center_one_bounds
  have hf : binFreq 512 106 = 584325 / 128 := by
    unfold binFreq sampleRate
    norm_num
  unfold melFilterWeight
  simp only [zero_add]
  rw [hzPoints_zero, hf, hzPoints_one_two]
  rw [if_neg (by rintro ⟨-, hx⟩; norm_num at hx; linarith)]
  rw [if_pos ⟨by norm_num; linarith, by norm_num⟩]
  rw [le_div_iff₀ (by linarith)]
  linarith

lemma center_four_bounds : (1460 : ℝ) < hzPoints 500 4 1 ∧ hzPoints 500 4 1 < 1472 := by
  obtain ⟨hb1, hb2⟩ := rho_fifth_bounds
  have hcen : hzPoints 500 4 1 = 1200 * (455 / 24 : ℝ) ^ ((1 : ℝ) / 5) - 700 := by
    rw [hzPoints_eq]
    norm_num
  rw [hcen]
  constructor <;> linarith

lemma w32_lb : (9 : ℝ) / 10 ≤ melFilterWeight 500 512 4 0 32 := by
  obtain ⟨hc1, hc2⟩ := center_four_bounds
  have hf : binFreq 512 32 = 11025 / 8 := by
    unfold binFreq sampleRate
    norm_num
  unfold melFilterWeight
  simp only [zero_add]
  rw [hzPoints_zero, hf]
  rw [if_pos ⟨by norm_num, by norm_num; linarith⟩]
  rw [le_div_iff₀ (by linarith)]
  linarith

lemma w33_lb : (9 : ℝ) / 10 ≤ melFilterWeight 500 512 4 0 33 := by
  obtain ⟨hc1, hc2⟩ := center_four_bounds
  have hf : binFreq 512 33 = 363825 / 256 := by
    unfold binFreq sampleRate
    norm_num
  unfold melFilterWeight
  simp only [zero_add]
  rw [hzPoints_zero, hf]
  rw [if_pos ⟨by norm_num, by norm_num; linarith⟩]
  rw [le_div_iff₀ (by linarith)]
  linarith

end Helpers4
section Helpers5

lemma spikeInput_getD {k : ℕ} (h : k < 512) :
    spikeInput.getD k 0 = if k = 105 ∨ k = 106 then (255:ℝ) else 0 := by
  rw [spikeInput, getD_ofFn _ _ h]

lemma spike_value_gt_one :
    1 < (applyMelFiltering 1 (createMelFilterBank 500 512 1) spikeInput).getD 0 0 := by
  have hlen : spikeInput.length = 512 := by
    rw [spikeInput, List.length_ofFn]
  rw [applyMelFiltering, getD_ofFn _ _ (by norm_num : (0:ℕ) < 1)]
  show 1 < (∑ k ∈ Finset.range spikeInput.length,
    spikeInput.getD k 0 * ((createMelFilterBank 500 512 1).getD 0 []).getD k 0) / 255
  rw [hlen]
  have hterm : ∀ k ∈ Finset.range 512,
      spikeInput.getD k 0 * ((createMelFilterBank 500 512 1).getD 0 []).getD k 0 =
        (if k = 105 ∨ k = 106 then (255 : ℝ) else 0) * melFilterWeight 500 512 1 0 k := by
    intro k hk
    have hk' : k < 512 := Finset.mem_range.mp hk
    rw [spikeInput_getD hk', bank_get 500 512 1 (by norm_num) hk']
  rw [Finset.sum_congr rfl hterm]
  have hsub : ({105, 106} : Finset ℕ) ⊆ Finset.range 512 := by
    intro x hx
    simp only [Finset.mem_insert, Finset.mem_singleton] at hx
    rcases hx with h | h <;> subst h <;> exact Finset.mem_range.mpr (by norm_num)
  have hzero : ∀ x ∈ Finset.range 512, x ∉ ({105, 106} : Finset ℕ) →
      (if x = 105 ∨ x = 106 then (255 : ℝ) else 0) * melFilterWeight 500 512 1 0 x = 0 := by
    intro x _ hx
    simp only [Finset.mem_insert, Finset.mem_singleton] at hx
    push_neg at hx
    rw [if_neg (by rintro (h | h); exacts [hx.1 h, hx.2 h])]
    ring
  rw [← Finset.sum_subset hsub hzero]
  rw [Finset.sum_pair (by norm_num : (105 : ℕ) ≠ 106)]
  rw [if_pos (by norm_num), if_pos (by norm_num)]
  have h105 := w105_lb
  have h106 := w106_lb
  rw [lt_div_iff₀ (by norm_num : (0:ℝ) < 255)]
  linarith

lemma uniform_band0_gt :
    3 / 2 < (applyMelFiltering 4 (createMelFilterBank 500 512 4)
      (List.replicate 512 (255 : ℝ))).getD 0 0 := by
  rw [applyMelFiltering, getD_ofFn _ _ (by norm_num : (0:ℕ) < 4)]
  show 3 / 2 < (∑ k ∈ Finset.range (List.replicate 512 (255:ℝ)).length,
    (List.replicate 512 (255:ℝ)).getD k 0 *
      ((createMelFilterBank 500 512 4).getD 0 []).getD k 0) / 255
  rw [List.length_replicate]
  have hterm : ∀ k ∈ Finset.range 512,
      (List.replicate 512 (255:ℝ)).getD k 0 *
        ((createMelFilterBank 500 512 4).getD 0 []).getD k 0 =
          255 * melFilterWeight 500 512 4 0 k := by
    intro k hk
    have hk' : k < 512 := Finset.mem_range.mp hk
    rw [getD_replicate _ _ hk', bank_get 500 512 4 (by norm_num) hk']
  rw [Finset.sum_congr rfl hterm]
  have hsub : ({32, 33} : Finset ℕ) ⊆ Finset.range 512 := by
    intro x hx
    simp only [Finset.mem_insert, Finset.mem_singleton] at hx
    rcases hx with h | h <;> subst h <;> exact Finset.mem_range.mpr (by norm_num)
  have hmono : ∑ k ∈ ({32, 33} : Finset ℕ), 255 * melFilterWeight 500 512 4 0 k ≤
      ∑ k ∈ Finset.range 512, 255 * melFilterWeight 500 512 4 0 k := by
    apply Finset.sum_le_sum_of_subset_of_nonneg hsub
    intro k _ _
    have := (melFilterWeight_bounds 512 4 0 k).1
    linarith
  rw [Finset.sum_pair (by norm_num : (32 : ℕ) ≠ 33)] at hmono
  have h32 := w32_lb
  have h33 := w33_lb
  rw [lt_div_iff₀ (by norm_num : (0:ℝ) < 255)]
  linarith

end Helpers5
section Helpers6

lemma w_bin0_zero : melFilterWeight 500 512 4 0 0 = 0 := by
  have hc : (500 : ℝ) < hzPoints 500 4 1 := by
    have := hzPoints_lt_hzPoints (n := 4) (by omega : 0 < 1)
    rw [hzPoints_zero] at this
    exact this
  apply melFilterWeight_eq_zero
  · rw [hzPoints_zero]
    unfold binFreq sampleRate
    norm_num
  · push_neg
    have : binFreq 512 1 ≤ binFreq 512 1 := le_refl _
    have h0 : binFreq 512 0 = 0 := by
      unfold binFreq sampleRate
      norm_num
    simp only [zero_add]
    rw [h0]
    linarith

lemma w_bin1_zero : melFilterWeight 500 512 4 0 1 = 0 := by
  have hc : (500 : ℝ) < hzPoints 500 4 1 := by
    have := hzPoints_lt_hzPoints (n := 4) (by omega : 0 < 1)
    rw [hzPoints_zero] at this
    exact this
  have h1 : binFreq 512 1 = 11025 / 256 := by
    unfold binFreq sampleRate
    norm_num
  apply melFilterWeight_eq_zero
  · rw [hzPoints_zero, h1]
    norm_num
  · push_neg
    simp only [zero_add]
    rw [h1]
    linarith

lemma pushAll_eq_drop {α : Type} (W : ℕ) :
    ∀ (fs buf : List α), buf.length ≤ W →
      pushAll W buf fs = (buf ++ fs).drop (buf.length + fs.length - W) := by
  intro fs
  induction fs with
  | nil =>
    intro buf hbuf
    have h : buf.length + List.length ([] : List α) - W = 0 := by
      simp
      omega
    rw [h]
    simp [pushAll]
  | cons f fs ih =>
    intro buf hbuf
    have hstep : pushAll W buf (f :: fs) = pushAll W (pushFrame W buf f) fs := by
      simp [pushAll]
    rw [hstep]
    by_cases hL : W < (buf ++ [f]).length
    · -- eviction: buf.length = W
      have hlen : buf.length = W := by
        simp at hL
        omega
      have hpf : pushFrame W buf f = (buf ++ [f]).tail := by
        rw [pushFrame, if_pos hL]
      cases buf with
      | nil =>
        have hW : W = 0 := by simpa using hlen.symm
        subst hW
        rw [hpf]
        simp only [List.nil_append, List.tail_cons]
        rw [ih [] (by simp)]
        simp
      | cons b bs =>
        rw [hpf]
        simp only [List.cons_append, List.tail_cons]
        rw [ih (bs ++ [f]) (by simp at hlen ⊢; omega)]
        have harith : (bs ++ [f]).length + fs.length - W = fs.length := by
          simp at hlen ⊢
          omega
        rw [harith]
        have harith2 : (b :: bs).length + (f :: fs).length - W = fs.length + 1 := by
          simp at hlen ⊢
          omega
        rw [harith2]
        simp only [List.cons_append, List.drop_succ_cons, List.append_assoc,
          List.singleton_append, List.nil_append]
    · -- no eviction
      have hpf : pushFrame W buf f = buf ++ [f] := by
        rw [pushFrame, if_neg hL]
      rw [hpf]
      rw [ih (buf ++ [f]) (by simp at hL ⊢; omega)]
      have harith : (buf ++ [f]).length + fs.length - W =
          buf.length + (f :: fs).length - W := by
        simp
        omega
      rw [harith]
      simp only [List.append_assoc, List.singleton_append]

lemma pushFrame_length_le {α : Type} (W : ℕ) (buf : List α) (f : α)
    (h : buf.length ≤ W) : (pushFrame W buf f).length ≤ W := by
  rw [pushFrame]
  split_ifs with hL
  · simp at hL ⊢
    omega
  · simp at hL ⊢
    omega

end Helpers6
section Helpers7

lemma cell_div4 (p c : ℕ) (hc : c < 4) : (p * 4 + c) / 4 = p := by omega

lemma cell_mod4 (p c : ℕ) (hc : c < 4) : (p * 4 + c) % 4 = c := by omega

lemma cell_modW {W : ℕ} (y : ℕ) {x : ℕ} (hx : x < W) : (y * W + x) % W = x := by
  rw [Nat.mul_comm, Nat.mul_add_mod]
  exact Nat.mod_eq_of_lt hx

lemma cell_divW {W : ℕ} (hW : 0 < W) (y : ℕ) {x : ℕ} (hx : x < W) :
    (y * W + x) / W = y := by
  rw [Nat.mul_comm, Nat.mul_add_div hW]
  rw [Nat.div_eq_of_lt hx]
  omega

lemma shiftAppend_apply (W B : ℕ) (hW : 0 < W) (f : List ℝ) (d : ℕ → ℤ)
    {y x c : ℕ} (hy : y < B) (hx : x < W) (hc : c < 4) :
    shiftAppendTexture W B f d ((y * W + x) * 4 + c) =
      if x = W - 1 then (if c = 3 then 255 else encodeByte (f.getD y 0))
      else d ((y * W + x) * 4 + c + 4) := by
  unfold shiftAppendTexture
  rw [cell_div4 _ _ hc, cell_mod4 _ _ hc, cell_modW y hx, cell_divW hW y hx]
  rw [if_pos hy]

lemma applyFrames_shift (W B : ℕ) (hW : 0 < W) :
    ∀ (fs : List (List ℝ)) (d : ℕ → ℤ) (y x c : ℕ), y < B → c < 4 →
      x + fs.length < W →
      applyFrames W B d fs ((y * W + x) * 4 + c) =
        d ((y * W + (x + fs.length)) * 4 + c) := by
  intro fs
  induction fs with
  | nil =>
    intro d y x c hy hc hx
    simp [applyFrames]
  | cons f fs ih =>
    intro d y x c hy hc hx
    have hlen : (f :: fs).length = fs.length + 1 := by simp
    rw [hlen] at hx
    have hstep : applyFrames W B d (f :: fs) =
        applyFrames W B (shiftAppendTexture W B f d) fs := by
      simp [applyFrames]
    rw [hstep]
    rw [ih (shiftAppendTexture W B f d) y x c hy hc (by omega)]
    rw [shiftAppend_apply W B hW f d hy (by omega : x + fs.length < W) hc]
    rw [if_neg (by omega)]
    have : (y * W + (x + fs.length)) * 4 + c + 4 =
        (y * W + (x + (fs.length + 1))) * 4 + c := by ring
    rw [this, hlen]

lemma applyFrames_newest (W B : ℕ) (hW : 0 < W) :
    ∀ (fs : List (List ℝ)) (d : ℕ → ℤ) (y x c : ℕ), y < B → c < 4 → x < W →
      fs.length ≤ W → W ≤ x + fs.length →
      applyFrames W B d fs ((y * W + x) * 4 + c) =
        if c = 3 then 255
        else encodeByte ((fs.getD (x + fs.length - W) []).getD y 0) := by
  intro fs
  induction fs with
  | nil =>
    intro d y x c hy hc hx hlen hge
    simp at hge
    omega
  | cons f fs ih =>
    intro d y x c hy hc hx hlen hge
    have hclen : (f :: fs).length = fs.length + 1 := by simp
    have hstep : applyFrames W B d (f :: fs) =
        applyFrames W B (shiftAppendTexture W B f d) fs := by
      simp [applyFrames]
    rw [hstep]
    by_cases hcase : W ≤ x + fs.length
    · rw [ih (shiftAppendTexture W B f d) y x c hy hc hx
        (by rw [hclen] at hlen; omega) hcase]
      have hidx : x + (f :: fs).length - W = (x + fs.length - W) + 1 := by
        rw [hclen]
        omega
      rw [hidx, List.getD_cons_succ]
    · push_neg at hcase
      rw [applyFrames_shift W B hW fs _ y x c hy hc (by omega)]
      rw [shiftAppend_apply W B hW f d hy (by omega : x + fs.length < W) hc]
      rw [if_pos (by rw [hclen] at hge; omega : x + fs.length = W - 1)]
      have hidx : x + (f :: fs).length - W = 0 := by
        rw [hclen]
        rw [hclen] at hge
        omega
      rw [hidx, List.getD_cons_zero]

end Helpers7
section Helpers8

lemma getD_nonneg (frame : List ℝ) (h : ∀ v ∈ frame, 0 ≤ v) (y : ℕ) :
    0 ≤ frame.getD y 0 := by
  by_cases hy : y < frame.length
  · rw [List.getD_eq_getElem _ _ hy]
    exact h _ (List.getElem_mem hy)
  · rw [List.getD_eq_default _ _ (le_of_not_lt hy)]

lemma encodeByte_of_nonneg (v : ℝ) (hv : 0 ≤ v) :
    encodeByte v = Int.floor (min 1 v * 255) ∧
      0 ≤ encodeByte v ∧ encodeByte v ≤ 255 := by
  have hmin0 : (0 : ℝ) ≤ min 1 v := le_min (by norm_num) hv
  have h0 : (0 : ℝ) ≤ min 1 v * 255 := by nlinarith
  have h1 : min 1 v * 255 ≤ 255 := by
    have : min 1 v ≤ 1 := min_le_left _ _
    nlinarith
  have hfl0 : 0 ≤ Int.floor (min 1 v * 255) := Int.le_floor.mpr (by exact_mod_cast h0)
  have hfl1 : Int.floor (min 1 v * 255) ≤ 255 := by
    have hle := Int.floor_le (min 1 v * 255)
    have : (Int.floor (min 1 v * 255) : ℝ) ≤ 255 := le_trans hle h1
    exact_mod_cast this
  unfold encodeByte
  rw [Int.emod_eq_of_lt hfl0 (by omega)]
  exact ⟨rfl, hfl0, hfl1⟩

lemma channel_mods (p : ℕ) :
    (p * 4) % 4 = 0 ∧ (p * 4 + 1) % 4 = 1 ∧ (p * 4 + 2) % 4 = 2 ∧
      (p * 4 + 3) % 4 = 3 := by omega

lemma cellIndex_lt {W B y x : ℕ} (hy : y < B) (hx : x < W) {c : ℕ} (hc : c < 4) :
    (y * W + x) * 4 + c < W * B * 4 := by
  have h1 : y * W + x < B * W := by
    calc y * W + x < y * W + W := by omega
    _ = (y + 1) * W := by ring
    _ ≤ B * W := Nat.mul_le_mul_right W (by omega)
  calc (y * W + x) * 4 + c < ((y * W + x) + 1) * 4 := by omega
  _ ≤ (B * W) * 4 := Nat.mul_le_mul_right 4 (by omega)
  _ = W * B * 4 := by ring

lemma initial_rgba (W B : ℕ) : rgbaUniform W B (initialTextureData W B) := by
  intro y hy x hx
  obtain ⟨m0, m1, m2, m3⟩ := channel_mods (y * W + x)
  unfold initialTextureData
  refine ⟨?_, ?_, ?_⟩
  · rw [if_neg (by rintro ⟨-, hm⟩; omega), if_neg (by rintro ⟨-, hm⟩; omega)]
  · rw [if_neg (by rintro ⟨-, hm⟩; omega), if_neg (by rintro ⟨-, hm⟩; omega)]
  · rw [if_pos ⟨cellIndex_lt hy hx (by norm_num), m3⟩]

lemma shiftAppend_cell (W B : ℕ) (hW : 0 < W) (f : List ℝ) (d : ℕ → ℤ)
    {y x : ℕ} (hy : y < B) (hx : x < W) :
    (shiftAppendTexture W B f d ((y * W + x) * 4) =
      if x = W - 1 then encodeByte (f.getD y 0) else d ((y * W + (x + 1)) * 4)) ∧
    (shiftAppendTexture W B f d ((y * W + x) * 4 + 1) =
      if x = W - 1 then encodeByte (f.getD y 0) else d ((y * W + (x + 1)) * 4 + 1)) ∧
    (shiftAppendTexture W B f d ((y * W + x) * 4 + 2) =
      if x = W - 1 then encodeByte (f.getD y 0) else d ((y * W + (x + 1)) * 4 + 2)) ∧
    (shiftAppendTexture W B f d ((y * W + x) * 4 + 3) =
      if x = W - 1 then (255 : ℤ) else d ((y * W + (x + 1)) * 4 + 3)) := by
  have h0 := shiftAppend_apply W B hW f d hy hx (c := 0) (by norm_num)
  have h1 := shiftAppend_apply W B hW f d hy hx (c := 1) (by norm_num)
  have h2 := shiftAppend_apply W B hW f d hy hx (c := 2) (by norm_num)
  have h3 := shiftAppend_apply W B hW f d hy hx (c := 3) (by norm_num)
  rw [Nat.add_zero] at h0
  rw [show (y * W + x) * 4 + 4 = (y * W + (x + 1)) * 4 from by ring] at h0
  rw [show (y * W + x) * 4 + 1 + 4 = (y * W + (x + 1)) * 4 + 1 from by ring] at h1
  rw [show (y * W + x) * 4 + 2 + 4 = (y * W + (x + 1)) * 4 + 2 from by ring] at h2
  rw [show (y * W + x) * 4 + 3 + 4 = (y * W + (x + 1)) * 4 + 3 from by ring] at h3
  rw [if_neg (show ¬(0:ℕ) = 3 from by norm_num)] at h0
  rw [if_neg (show ¬(1:ℕ) = 3 from by norm_num)] at h1
  rw [if_neg (show ¬(2:ℕ) = 3 from by norm_num)] at h2
  rw [if_pos (show (3:ℕ) = 3 from rfl)] at h3
  exact ⟨h0, h1, h2, h3⟩

lemma shiftAppend_preserves (W B : ℕ) (hW : 0 < W) (d : ℕ → ℤ) (f : List ℝ)
    (h : rgbaUniform W B d) : rgbaUniform W B (shiftAppendTexture W B f d) := by
  intro y hy x hx
  obtain ⟨h0, h1, h2, h3⟩ := shiftAppend_cell W B hW f d hy hx
  rw [h0, h1, h2, h3]
  by_cases hx1 : x = W - 1
  · rw [if_pos hx1, if_pos hx1, if_pos hx1, if_pos hx1]
    exact ⟨rfl, rfl, rfl⟩
  · rw [if_neg hx1, if_neg hx1, if_neg hx1, if_neg hx1]
    have hx' : x + 1 < W := by omega
    exact h y hy (x + 1) hx'

end Helpers8
/-- C1 (amended): for a magnitude frame with one byte value (in [0, 255])
per FFT bin, applyMelFiltering returns a frame of length bandCount whose
values are all nonnegative and bounded by the corresponding filter's total
weight.  The claimed upper bound 1 does not hold in general, because the
source normalises by the fixed constant 255 instead of the filter's weight
sum. -/
theorem applyMelFiltering_length_and_bounds (nfft n : ℕ) (fftData : List ℝ)
    (hlen : fftData.length = nfft)
    (hdata : ∀ v ∈ fftData, 0 ≤ v ∧ v ≤ 255) :
    (applyMelFiltering n (createMelFilterBank 500 nfft n) fftData).length = n ∧
    ∀ m, m < n →
      0 ≤ (applyMelFiltering n (createMelFilterBank 500 nfft n) fftData).getD m 0 ∧
      (applyMelFiltering n (createMelFilterBank 500 nfft n) fftData).getD m 0 ≤
        ∑ k ∈ Finset.range nfft, melFilterWeight 500 nfft n m k := by
  have hnn : ∀ k, 0 ≤ fftData.getD k 0 :=
    getD_nonneg fftData (fun v hv => (hdata v hv).1)
  have hub : ∀ k, k < fftData.length → fftData.getD k 0 ≤ 255 := by
    intro k hk
    rw [List.getD_eq_getElem _ _ hk]
    exact (hdata _ (List.getElem_mem hk)).2
  constructor
  · rw [applyMelFiltering, List.length_ofFn]
  · intro m hm
    rw [applyMelFiltering, getD_ofFn _ _ hm]
    show 0 ≤ (∑ k ∈ Finset.range fftData.length, fftData.getD k 0 *
        ((createMelFilterBank 500 nfft n).getD m []).getD k 0) / 255 ∧
      (∑ k ∈ Finset.range fftData.length, fftData.getD k 0 *
        ((createMelFilterBank 500 nfft n).getD m []).getD k 0) / 255 ≤
        ∑ k ∈ Finset.range nfft, melFilterWeight 500 nfft n m k
    rw [hlen]
    constructor
    · apply div_nonneg _ (by norm_num)
      apply Finset.sum_nonneg
      intro k hk
      rw [bank_get 500 nfft n hm (Finset.mem_range.mp hk)]
      exact mul_nonneg (hnn k) (melFilterWeight_bounds nfft n m k).1
    · rw [div_le_iff₀ (by norm_num : (0:ℝ) < 255)]
      have hterm : ∀ k ∈ Finset.range nfft,
          fftData.getD k 0 * ((createMelFilterBank 500 nfft n).getD m []).getD k 0 ≤
            melFilterWeight 500 nfft n m k * 255 := by
        intro k hk
        have hk' := Finset.mem_range.mp hk
        rw [bank_get 500 nfft n hm hk']
        have h1 : fftData.getD k 0 ≤ 255 := hub k (by omega)
        have h2 := (melFilterWeight_bounds nfft n m k).1
        nlinarith [hnn k]
      calc ∑ k ∈ Finset.range nfft, fftData.getD k 0 *
            ((createMelFilterBank 500 nfft n).getD m []).getD k 0
          ≤ ∑ k ∈ Finset.range nfft, melFilterWeight 500 nfft n m k * 255 :=
            Finset.sum_le_sum hterm
        _ = (∑ k ∈ Finset.range nfft, melFilterWeight 500 nfft n m k) * 255 := by
            rw [Finset.sum_mul]

/-- C1 witness: the amended theorem applied to the one-bin frame [0]. -/
theorem applyMelFiltering_length_and_bounds_witness :
    ([(0:ℝ)].length = 1) ∧ (∀ v ∈ [(0:ℝ)], 0 ≤ v ∧ v ≤ 255) ∧
    ((applyMelFiltering 1 (createMelFilterBank 500 1 1) [(0:ℝ)]).length = 1 ∧
      ∀ m, m < 1 →
        0 ≤ (applyMelFiltering 1 (createMelFilterBank 500 1 1) [(0:ℝ)]).getD m 0 ∧
        (applyMelFiltering 1 (createMelFilterBank 500 1 1) [(0:ℝ)]).getD m 0 ≤
          ∑ k ∈ Finset.range 1, melFilterWeight 500 1 1 m k) :=
  ⟨by simp, by intro v hv; simp at hv; subst hv; norm_num,
    applyMelFiltering_length_and_bounds 1 1 [(0:ℝ)] (by simp)
      (by intro v hv; simp at hv; subst hv; norm_num)⟩

/-- C1 counterexample: the valid magnitude frame spikeInput (bytes 0-255,
one per bin, at the source configuration fftSize 1024 and melBands 1)
produces a Mel value strictly greater than 1, so reduce output values are
not always within [0, 1]. -/
theorem applyMelFiltering_value_exceeds_one :
    (∀ v ∈ spikeInput, 0 ≤ v ∧ v ≤ 255) ∧ spikeInput.length = 512 ∧
    1 < (applyMelFiltering 1 (createMelFilterBank 500 512 1) spikeInput).getD 0 0 := by
  refine ⟨?_, ?_, spike_value_gt_one⟩
  · intro v hv
    rw [spikeInput, List.mem_ofFn] at hv
    obtain ⟨k, hk⟩ := hv
    rw [← hk]
    simp only []
    split_ifs <;> norm_num
  · rw [spikeInput, List.length_ofFn]

/-- C2 (amended): at sample rate 44100, 512 FFT bins, 4 Mel bands and
minimum frequency 500 Hz, the bank has 4 filters whose center frequencies
hzPoints[1..4] strictly increase and lie strictly between 500 Hz and
22050 Hz; but reducing the uniform-255 magnitude frame does NOT give values
close to 1: each band value equals its filter's total weight, and band 0
already exceeds 3/2 (its filter spans dozens of bins). -/
theorem endToEnd_4band_structure :
    (createMelFilterBank 500 512 4).length = 4 ∧
    (hzPoints 500 4 1 < hzPoints 500 4 2 ∧ hzPoints 500 4 2 < hzPoints 500 4 3 ∧
      hzPoints 500 4 3 < hzPoints 500 4 4) ∧
    (500 < hzPoints 500 4 1 ∧ hzPoints 500 4 4 < 22050) ∧
    3 / 2 < (applyMelFiltering 4 (createMelFilterBank 500 512 4)
      (List.replicate 512 (255 : ℝ))).getD 0 0 := by
  refine ⟨bank_length 500 512 4,
    ⟨hzPoints_lt_hzPoints (by omega), hzPoints_lt_hzPoints (by omega),
      hzPoints_lt_hzPoints (by omega)⟩, ⟨?_, ?_⟩, uniform_band0_gt⟩
  · have h := hzPoints_lt_hzPoints (n := 4) (show 0 < 1 by omega)
    rw [hzPoints_zero] at h
    exact h
  · have h := hzPoints_lt_hzPoints (n := 4) (show 4 < 5 by omega)
    have h5 : hzPoints 500 4 5 = 22050 := by
      have := hzPoints_last 4
      norm_num at this
      exact this
    rw [h5] at h
    exact h

/-- C2 counterexample: feeding the uniform-255 frame does not yield a
MelFrame with all values close to 1.0 (within one half): band 0 exceeds
3/2. -/
theorem endToEnd_not_approx_one :
    ¬ ∀ m, m < 4 → |(applyMelFiltering 4 (createMelFilterBank 500 512 4)
      (List.replicate 512 (255 : ℝ))).getD m 0 - 1| ≤ 1 / 2 := by
  intro h
  have h0 := h 0 (by norm_num)
  rw [abs_le] at h0
  have := uniform_band0_gt
  linarith [h0.2]
/-- C3 (amended): for every bandCount >= 1 (sample rate 44100, minHz 500)
the bank has exactly bandCount filters of length fftBinCount with weights in
[0, 1]; each filter follows the spec's triangular ramp on the Hz images of
Mel breakpoints m-1, m, m+1; adjacent center frequencies strictly increase;
and each filter is WEAKLY unimodal: nondecreasing over bins at or below its
center frequency and nonincreasing over bins at or beyond it.  The claimed
STRICT increase-then-decrease is false (see the counterexample): filters
carry runs of equal weights, e.g. leading zero bins. -/
theorem melFilterBank_structure (nfft n : ℕ) (hn : 1 ≤ n) :
    (createMelFilterBank 500 nfft n).length = n ∧
    (∀ j, j < n → ((createMelFilterBank 500 nfft n).getD j []).length = nfft) ∧
    (∀ j k, j < n → k < nfft →
      0 ≤ ((createMelFilterBank 500 nfft n).getD j []).getD k 0 ∧
      ((createMelFilterBank 500 nfft n).getD j []).getD k 0 ≤ 1) ∧
    (∀ j k, j < n → k < nfft →
      ((createMelFilterBank 500 nfft n).getD j []).getD k 0 =
        triangularRamp (hzPoints 500 n j) (hzPoints 500 n (j + 1))
          (hzPoints 500 n (j + 2)) (binFreq nfft k)) ∧
    (∀ j, hzPoints 500 n (j + 1) < hzPoints 500 n (j + 2)) ∧
    (∀ j k1 k2, k1 ≤ k2 → binFreq nfft k2 ≤ hzPoints 500 n (j + 1) →
      melFilterWeight 500 nfft n j k1 ≤ melFilterWeight 500 nfft n j k2) ∧
    (∀ j k1 k2, k1 ≤ k2 → hzPoints 500 n (j + 1) ≤ binFreq nfft k1 →
      melFilterWeight 500 nfft n j k2 ≤ melFilterWeight 500 nfft n j k1) := by
  refine ⟨bank_length 500 nfft n, ?_, ?_, ?_, ?_, ?_, ?_⟩
  · intro j hj
    exact bank_inner_length 500 nfft n hj
  · intro j k hj hk
    rw [bank_get 500 nfft n hj hk]
    exact melFilterWeight_bounds nfft n j k
  · intro j k hj hk
    rw [bank_get 500 nfft n hj hk]
    exact weight_eq_ramp nfft n j k
  · intro j
    exact hzPoints_lt_hzPoints (by omega)
  · intro j k1 k2 hk hc
    exact melFilterWeight_rise nfft n j hk hc
  · intro j k1 k2 hk hc
    exact melFilterWeight_fall nfft n j hk hc

/-- C3 witness: the amended theorem at 4 bins and 2 bands. -/
theorem melFilterBank_structure_witness :
    (1 ≤ 2) ∧ ((createMelFilterBank 500 4 2).length = 2 ∧
    (∀ j, j < 2 → ((createMelFilterBank 500 4 2).getD j []).length = 4) ∧
    (∀ j k, j < 2 → k < 4 →
      0 ≤ ((createMelFilterBank 500 4 2).getD j []).getD k 0 ∧
      ((createMelFilterBank 500 4 2).getD j []).getD k 0 ≤ 1) ∧
    (∀ j k, j < 2 → k < 4 →
      ((createMelFilterBank 500 4 2).getD j []).getD k 0 =
        triangularRamp (hzPoints 500 2 j) (hzPoints 500 2 (j + 1))
          (hzPoints 500 2 (j + 2)) (binFreq 4 k)) ∧
    (∀ j, hzPoints 500 2 (j + 1) < hzPoints 500 2 (j + 2)) ∧
    (∀ j k1 k2, k1 ≤ k2 → binFreq 4 k2 ≤ hzPoints 500 2 (j + 1) →
      melFilterWeight 500 4 2 j k1 ≤ melFilterWeight 500 4 2 j k2) ∧
    (∀ j k1 k2, k1 ≤ k2 → hzPoints 500 2 (j + 1) ≤ binFreq 4 k1 →
      melFilterWeight 500 4 2 j k2 ≤ melFilterWeight 500 4 2 j k1)) :=
  ⟨by norm_num, melFilterBank_structure 4 2 (by norm_num)⟩

/-- C3 counterexample: at the end-to-end configuration (512 bins, 4 bands)
filter 0's weight sequence has weight 0 at both bin 0 and bin 1 (both below
the 500 Hz left edge), so it does not strictly increase then strictly
decrease. -/
theorem melFilterBank_not_strictly_unimodal :
    ¬ StrictUnimodal
      (fun k => ((createMelFilterBank 500 512 4).getD 0 []).getD k 0) 512 := by
  rintro ⟨p, hp, hup, hdown⟩
  have h0 : ((createMelFilterBank 500 512 4).getD 0 []).getD 0 0 = 0 := by
    rw [bank_get 500 512 4 (by norm_num) (by norm_num)]
    exact w_bin0_zero
  have h1 : ((createMelFilterBank 500 512 4).getD 0 []).getD 1 0 = 0 := by
    rw [bank_get 500 512 4 (by norm_num) (by norm_num)]
    exact w_bin1_zero
  rcases Nat.eq_zero_or_pos p with hp0 | hp1
  · have hd := hdown 0 (by omega) (by omega)
    simp only [h0, h1] at hd
    exact lt_irrefl 0 hd
  · have hu := hup 0 (by omega)
    simp only [h0, h1] at hu
    exact lt_irrefl 0 hu

/-- C6 (amended): the source filter-bank builder performs no configuration
validation.  With the degenerate configuration minHz = sampleRate / 2 =
22050 it does NOT fail: it silently returns a bank of bandCount filters in
which every weight is 0 (all breakpoints collapse to 22050 Hz, above every
bin frequency), i.e. exactly the silent zero-width filters the claim says
must not be produced.  There is no error path in the builder. -/
theorem degenerate_minHz_no_error (nfft n : ℕ) (hnfft : 0 < nfft) :
    (createMelFilterBank 22050 nfft n).length = n ∧
    ∀ j k, j < n → k < nfft →
      ((createMelFilterBank 22050 nfft n).getD j []).getD k 0 = 0 := by
  refine ⟨bank_length 22050 nfft n, ?_⟩
  intro j k hj hk
  rw [bank_get 22050 nfft n hj hk]
  exact degenerate_weight_zero nfft n j k hk

/-- C6 witness: the amended theorem at 2 bins and 1 band. -/
theorem degenerate_minHz_no_error_witness :
    (0 < 2) ∧ ((createMelFilterBank 22050 2 1).length = 1 ∧
      ∀ j k, j < 1 → k < 2 →
        ((createMelFilterBank 22050 2 1).getD j []).getD k 0 = 0) :=
  ⟨by norm_num, degenerate_minHz_no_error 2 1 (by norm_num)⟩

/-- C6 counterexample: at the degenerate configuration minHz = 22050 =
sampleRate / 2 (with 512 bins and 4 bands) the builder totally succeeds,
returning a 4-filter bank with all-zero weights; it raises no InvalidConfig
error - no error path exists in its semantics. -/
theorem degenerate_minHz_counterexample :
    (createMelFilterBank 22050 512 4).length = 4 ∧
    ((createMelFilterBank 22050 512 4).getD 0 []).getD 0 0 = 0 ∧
    ((createMelFilterBank 22050 512 4).getD 3 []).getD 511 0 = 0 := by
  refine ⟨bank_length 22050 512 4, ?_, ?_⟩
  · rw [bank_get 22050 512 4 (by norm_num) (by norm_num)]
    exact degenerate_weight_zero 512 4 0 0 (by norm_num)
  · rw [bank_get 22050 512 4 (by norm_num) (by norm_num)]
    exact degenerate_weight_zero 512 4 3 511 (by norm_num)
lemma encodeByte_one : encodeByte 1 = 255 := by
  unfold encodeByte
  rw [min_self, one_mul]
  rw [show (255:ℝ) = ((255:ℤ):ℝ) from by norm_num, Int.floor_intCast]
  decide

/-- C4: the history buffer's length never exceeds the configured width W
(both from empty and one push at a time from any valid state), and pushing
N > W frames from empty leaves exactly the last W pushed frames in their
original relative order. -/
theorem historyBuffer_fifo (W : ℕ) (fs : List (List ℝ)) :
    (pushAll W ([] : List (List ℝ)) fs).length ≤ W ∧
    (∀ (buf : List (List ℝ)) (f : List ℝ), buf.length ≤ W →
      (pushFrame W buf f).length ≤ W) ∧
    (W < fs.length → pushAll W [] fs = fs.drop (fs.length - W)) := by
  have h := pushAll_eq_drop W fs [] (by simp)
  simp only [List.nil_append, List.length_nil, Nat.zero_add] at h
  refine ⟨?_, ?_, ?_⟩
  · rw [h, List.length_drop]
    omega
  · intro buf f hbuf
    exact pushFrame_length_le W buf f hbuf
  · intro _
    exact h

/-- C4 witness: pushing 2 frames through a width-1 buffer keeps the last. -/
theorem historyBuffer_fifo_witness :
    (1 < ([[(1:ℝ)], [2]] : List (List ℝ)).length) ∧
    pushAll 1 ([] : List (List ℝ)) [[(1:ℝ)], [2]] = [[(2:ℝ)]] :=
  ⟨by norm_num,
    ((historyBuffer_fifo 1 [[(1:ℝ)], [2]]).2.2 (by norm_num)).trans rfl⟩

/-- C5: each shiftAndAppend moves every row one column left (column x takes
the former column x+1), writes the newest frame's encoded bytes into column
W-1 with alpha 255; and applying it W times with frames f_1..f_W from any
image leaves column x holding f_{x+1}'s encoded band values. -/
theorem shiftAppend_scroll (W B : ℕ) (hW : 0 < W) :
    (∀ (d : ℕ → ℤ) (f : List ℝ) (y x c : ℕ), y < B → x < W → c < 4 →
      shiftAppendTexture W B f d ((y * W + x) * 4 + c) =
        if x = W - 1 then (if c = 3 then 255 else encodeByte (f.getD y 0))
        else d ((y * W + (x + 1)) * 4 + c)) ∧
    (∀ (d : ℕ → ℤ) (fs : List (List ℝ)), fs.length = W →
      ∀ y x c, y < B → x < W → c < 4 →
        applyFrames W B d fs ((y * W + x) * 4 + c) =
          if c = 3 then 255 else encodeByte ((fs.getD x []).getD y 0)) := by
  constructor
  · intro d f y x c hy hx hc
    rw [shiftAppend_apply W B hW f d hy hx hc]
    have e : (y * W + x) * 4 + c + 4 = (y * W + (x + 1)) * 4 + c := by ring
    rw [e]
  · intro d fs hlen y x c hy hx hc
    have h := applyFrames_newest W B hW fs d y x c hy hc hx (by omega) (by omega)
    rw [h]
    have e : x + fs.length - W = x := by omega
    rw [e]

/-- C5 witness: one frame of value 1 through a 1-by-1 image writes byte 255. -/
theorem shiftAppend_scroll_witness :
    (0 < 1) ∧ applyFrames 1 1 (fun _ => 0) [[(1:ℝ)]] 0 = 255 := by
  refine ⟨by norm_num, ?_⟩
  have h := (shiftAppend_scroll 1 1 (by norm_num)).2 (fun _ => 0) [[(1:ℝ)]] rfl
    0 0 0 (by norm_num) (by norm_num) (by norm_num)
  have e : (0 * 1 + 0) * 4 + 0 = 0 := by norm_num
  rw [e] at h
  rw [if_neg (by norm_num : ¬(0:ℕ) = 3)] at h
  rw [show (([[(1:ℝ)]].getD 0 []).getD 0 0) = (1:ℝ) from rfl] at h
  rw [h, encodeByte_one]

/-- C7 (amended): for a frame whose present values are all nonnegative (as
every reduce output is), the byte written into the newest column is
floor(min(1, v) * 255) - the value clamped ABOVE at 1 and a missing value
read as 0 - and always lies in [0, 255].  The code does NOT clamp below at
0: a negative value wraps modulo 256 (see the counterexample). -/
theorem appendColumn_clamp (W B : ℕ) (hW : 0 < W) (frame : List ℝ)
    (d : ℕ → ℤ) (y c : ℕ) (hy : y < B) (hc : c < 3)
    (hfr : ∀ v ∈ frame, 0 ≤ v) :
    shiftAppendTexture W B frame d ((y * W + (W - 1)) * 4 + c) =
      Int.floor (min 1 (frame.getD y 0) * 255) ∧
    0 ≤ shiftAppendTexture W B frame d ((y * W + (W - 1)) * 4 + c) ∧
    shiftAppendTexture W B frame d ((y * W + (W - 1)) * 4 + c) ≤ 255 := by
  have hx : W - 1 < W := by omega
  have happ := shiftAppend_apply W B hW frame d hy hx (show c < 4 by omega)
  rw [if_pos rfl, if_neg (by omega : ¬ c = 3)] at happ
  rw [happ]
  exact encodeByte_of_nonneg (frame.getD y 0) (getD_nonneg frame hfr y)

/-- C7 witness: the amended theorem on the out-of-range value 2, which is
clamped to 1 and stored as byte 255. -/
theorem appendColumn_clamp_witness :
    (0 < 1) ∧ (0 < 3) ∧ (∀ v ∈ [(2:ℝ)], 0 ≤ v) ∧
    (shiftAppendTexture 1 1 [(2:ℝ)] (fun _ => 0) ((0 * 1 + (1 - 1)) * 4 + 0) =
        Int.floor (min 1 ([(2:ℝ)].getD 0 0) * 255) ∧
      0 ≤ shiftAppendTexture 1 1 [(2:ℝ)] (fun _ => 0) ((0 * 1 + (1 - 1)) * 4 + 0) ∧
      shiftAppendTexture 1 1 [(2:ℝ)] (fun _ => 0) ((0 * 1 + (1 - 1)) * 4 + 0) ≤ 255) :=
  ⟨by norm_num, by norm_num, by intro v hv; simp at hv; subst hv; norm_num,
    appendColumn_clamp 1 1 (by norm_num) [(2:ℝ)] (fun _ => 0) 0 0 (by norm_num)
      (by norm_num) (by intro v hv; simp at hv; subst hv; norm_num)⟩

/-- C7 counterexample: for the latest-frame value -1 the code stores byte
1 (floor(min(1, -1) * 255) = -255, which the Uint8Array store wraps to 1),
whereas clamping to [0, 1] before scaling would store 0; the written byte
does not correspond to the claimed clamped intensity. -/
theorem appendColumn_negative_wraps :
    shiftAppendTexture 1 1 [(-1 : ℝ)] (fun _ => 0) 0 = 1 ∧
    clampScaleSpec (-1) = 0 := by
  constructor
  · have h := shiftAppend_apply 1 1 (by norm_num) [(-1:ℝ)] (fun _ => 0)
      (y := 0) (x := 0) (c := 0) (by norm_num) (by norm_num) (by norm_num)
    have e : (0 * 1 + 0) * 4 + 0 = 0 := by norm_num
    rw [e] at h
    rw [if_pos (by norm_num : (0:ℕ) = 1 - 1),
      if_neg (by norm_num : ¬(0:ℕ) = 3)] at h
    rw [h, show ([(-1:ℝ)].getD 0 0) = (-1:ℝ) from rfl]
    unfold encodeByte
    rw [min_eq_right (by norm_num : (-1:ℝ) ≤ 1)]
    rw [show (-1:ℝ) * 255 = ((-255:ℤ):ℝ) from by norm_num, Int.floor_intCast]
    decide
  · unfold clampScaleSpec
    rw [min_eq_right (by norm_num : (-1:ℝ) ≤ 1),
      max_eq_left (by norm_num : (-1:ℝ) ≤ 0)]
    norm_num

/-- C8 (amended): every cell has R = G = B and alpha 255 at initial creation,
and this invariant is preserved by every shift-and-append; but texture
recreation resets ALL bytes to 0 (R = G = B still equal, yet alpha 0, not
255), so the claimed alpha invariant fails across recreations. -/
theorem texture_rgba_invariant :
    (∀ W B, rgbaUniform W B (initialTextureData W B)) ∧
    (∀ W B (d : ℕ → ℤ) (f : List ℝ), 0 < W → rgbaUniform W B d →
      rgbaUniform W B (shiftAppendTexture W B f d)) ∧
    (∀ W B i : ℕ, recreateTextureData W B i = 0) := by
  refine ⟨initial_rgba, ?_, ?_⟩
  · intro W B d f hW h
    exact shiftAppend_preserves W B hW d f h
  · intro W B i
    rfl

/-- C8 witness: the invariant holds on the fresh 1-by-1 image and after one
shift-and-append of the empty frame. -/
theorem texture_rgba_invariant_witness :
    (0 < 1) ∧ rgbaUniform 1 1 (shiftAppendTexture 1 1 [] (initialTextureData 1 1)) :=
  ⟨by norm_num,
    texture_rgba_invariant.2.1 1 1 (initialTextureData 1 1) [] (by norm_num)
      (texture_rgba_invariant.1 1 1)⟩

/-- C8 counterexample: right after recreateTexture the 1-by-1 image's cell
(0, 0) has alpha byte 0, not 255, so the RGBA invariant does not hold after
every mutation. -/
theorem recreate_alpha_zero : ¬ rgbaUniform 1 1 (recreateTextureData 1 1) := by
  intro h
  have halpha := (h 0 (by norm_num) 0 (by norm_num)).2.2
  rw [show recreateTextureData 1 1 ((0 * 1 + 0) * 4 + 3) = 0 from rfl] at halpha
  norm_num at halpha

/-- C9: spectrogramColor yields pure black at intensity 0 and at every
intensity below 0.01, and at the thresholds 0.25 and 0.6 the two adjacent
smoothstep-blended interpolation branches evaluate to the same colour, so
the palette is continuous there. -/
theorem spectrogramColor_black_continuous :
    (∀ t : ℝ, spectrogramColor t 0 = (0, 0, 0)) ∧
    (∀ t v : ℝ, v < 0.01 → spectrogramColor t v = (0, 0, 0)) ∧
    lowBranch 0.25 = midBranch 0.25 ∧ midBranch 0.6 = highBranch 0.6 := by
  refine ⟨?_, ?_, ?_, ?_⟩
  · intro t
    rw [spectrogramColor, if_pos (by norm_num)]
  · intro t v hv
    rw [spectrogramColor, if_pos hv]
  · unfold lowBranch midBranch mix3 smoothstep
    norm_num [Prod.ext_iff]
  · unfold midBranch highBranch mix3 smoothstep
    norm_num [Prod.ext_iff]

/-- C9 witness: the theorem applied at time 7 and intensity 1/200 < 0.01. -/
theorem spectrogramColor_black_continuous_witness :
    ((1:ℝ)/200 < 0.01) ∧ spectrogramColor 7 (1/200) = (0, 0, 0) :=
  ⟨by norm_num, spectrogramColor_black_continuous.2.1 7 (1/200) (by norm_num)⟩

/-- C10: with an empty history the texture update is a no-op (the texture is
returned unchanged), and with an absent texture nothing is produced, so
analysis ticks before the first frame leave the image untouched. -/
theorem updateTexture_noop_when_empty (W B : ℕ) :
    (∀ (tex : Option (ℕ → ℤ)) (hist : List (List ℝ)), hist = [] →
      updateTexture W B hist tex = tex) ∧
    (∀ hist : List (List ℝ), updateTexture W B hist none = none) := by
  constructor
  · rintro tex hist rfl
    cases tex <;> simp [updateTexture]
  · intro hist
    rfl

/-- C10 witness: the empty history leaves a concrete texture unchanged. -/
theorem updateTexture_noop_when_empty_witness :
    (([] : List (List ℝ)) = []) ∧
    updateTexture 1 1 [] (some fun _ => (0:ℤ)) = some fun _ => (0:ℤ) :=
  ⟨rfl, (updateTexture_noop_when_empty 1 1).1 _ [] rfl⟩
